import Mathlib

/-!
Verification development for the ezodus characters-market batch job
(`market.py`): auction collection, leaderboard skill enrichment and
tabular export, shallowly embedded in Lean.

The browser/HTML layer is treated as an external collaborator: a page
source is a function from skill and zero-based page number to the raw
table rows (header row included; the code drops row 0), and an auction
listing is a list of rows of cell texts.
-/

namespace Market

/-- The `Skill` enumeration of `market.py`. -/
inductive Skill where
  | MAGIC
  | SHIELDING
  | DISTANCE
  | CLUB
  | SWORD
  | AXE
deriving DecidableEq, Fintype

/-- The `Profession` enumeration of `market.py`. -/
inductive Profession where
  | KNIGHT
  | SORCERER
  | DRUID
  | PALADIN
deriving DecidableEq, Fintype

/-- The display value of a profession (the Python enum `value`). -/
def Profession.value : Profession → String
  | .KNIGHT => "Knight"
  | .SORCERER => "Sorcerer"
  | .DRUID => "Druid"
  | .PALADIN => "Paladin"

/-- The internal enum member name (the Python enum `name`). -/
def Profession.name : Profession → String
  | .KNIGHT => "KNIGHT"
  | .SORCERER => "SORCERER"
  | .DRUID => "DRUID"
  | .PALADIN => "PALADIN"

/-- `Profession.values()` in `market.py`: the fixed match order. -/
def Profession.values : List Profession :=
  [.KNIGHT, .SORCERER, .DRUID, .PALADIN]

/-- Helper for `strContains`: does `needle` occur starting at some
position of the remaining haystack? -/
def strContainsAux (needle : List Char) : List Char → Bool
  | [] => needle.isEmpty
  | c :: rest => needle.isPrefixOf (c :: rest) || strContainsAux needle rest

/-- The Python substring test `needle in hay`. -/
def strContains (needle hay : String) : Bool :=
  strContainsAux needle.data hay.data

/-- `Profession.find` in `market.py`: first profession (in `values()`
order) whose display value occurs in the text; `none` models the
`StopIteration` raised by `next` when no profession matches. -/
def Profession.find (text : String) : Option Profession :=
  Profession.values.find? (fun p => strContains p.value text)

/-- `Character`: created with an empty skill mapping; the mapping is a
partial map from skills to measured values (`none` = key absent). -/
structure Character where
  name : String
  profession : Profession
  lvl : Int
  skills : Skill → Option Int

/-- `Auction`: one character with an asking price. -/
structure Auction where
  character : Character
  price : Int

/-- Digit-list accumulator for `pyInt`. -/
def parseDigitsAux : List Char → Nat → Option Nat
  | [], acc => some acc
  | c :: cs, acc =>
    if c.isDigit then parseDigitsAux cs (acc * 10 + (c.toNat - 48)) else none

/-- All-decimal-digits parse of a nonempty character list. -/
def parseDigits (cs : List Char) : Option Nat :=
  if cs.isEmpty then none else parseDigitsAux cs 0

/-- Python `int(...)` on a token: optional sign followed by decimal
digits; `none` models the `ValueError` on anything else. -/
def pyInt (s : String) : Option Int :=
  match s.data with
  | [] => none
  | c :: cs =>
    if c = '-' then (parseDigits cs).map (fun n => -(n : Int))
    else if c = '+' then (parseDigits cs).map (fun n => (n : Int))
    else (parseDigits (c :: cs)).map (fun n => (n : Int))

/-- Python `s.split(' ')[0]`: the prefix of `s` before the first space. -/
def firstToken (s : String) : String :=
  (s.data.takeWhile (fun c => c ≠ ' ')).asString

/-- `Auction.create` in `market.py`, on the row's cell texts:
column 0 = name, column 1 = "level profession", column 2 = price text. -/
def Auction.create (row : List String) : Option Auction := do
  let name ← row.get? 0
  let lvlProfessionRaw ← row.get? 1
  let lvl ← pyInt (firstToken lvlProfessionRaw)
  let profession ← Profession.find lvlProfessionRaw
  let priceRaw ← row.get? 2
  let price ← pyInt (firstToken priceRaw)
  some ⟨⟨name, profession, lvl, fun _ => none⟩, price⟩

/-- `PROFESSION_SKILL_MAP` in `market.py`. -/
def PROFESSION_SKILL_MAP : Profession → List Skill
  | .DRUID => [.MAGIC]
  | .SORCERER => [.MAGIC]
  | .KNIGHT => [.SWORD, .AXE, .CLUB]
  | .PALADIN => [.DISTANCE, .MAGIC]

/-- Iteration order of `SKILL_URL_MAP.items()` (dict insertion order). -/
def skillOrder : List Skill :=
  [.MAGIC, .SHIELDING, .DISTANCE, .SWORD, .AXE, .CLUB]

/-- A leaderboard page source: skill and zero-based page number to the
raw table rows, each row reduced to its (name, value) cells; the code
drops row 0 (`[1:]`, the header) before use. -/
def Source : Type := Skill → Nat → List (String × Int)

/-- The in-place `character.skills[skill] = value` on one character. -/
def setSkill (c : Character) (sk : Skill) (v : Int) : Character :=
  { c with skills := fun s => if s = sk then some v else c.skills s }

/-- The effect of `character_map.get(name).skills[skill] = value`:
`character_map` binds each name to the last character with that name,
so the write lands on the last occurrence of `nm` in the list. -/
def updateLastByName : List Character → String → Skill → Int → List Character
  | [], _, _, _ => []
  | c :: rest, nm, sk, v =>
    if rest.any (fun d => d.name = nm) then c :: updateLastByName rest nm sk v
    else if c.name = nm then setSkill c sk v :: rest
    else c :: rest

/-- One page's row loop in `update_skills`: write each row's value whose
name is in the skill's pending set. -/
def scanRows (pending : List String) (sk : Skill) (rows : List (String × Int))
    (cs : List Character) : List Character :=
  rows.foldl (fun acc r => if r.1 ∈ pending then updateLastByName acc r.1 sk r.2 else acc) cs

/-- The `while True` pagination loop of `update_skills` for one skill,
fuelled; returns the list of fetched page numbers and the updated
characters, `none` when the fuel runs out. -/
def runPages (src : Source) (sk : Skill) (pending : List String) :
    Nat → Nat → List Character → Option (List Nat × List Character)
  | 0, _, _ => none
  | fuel + 1, page, cs =>
    let rows := (src sk page).drop 1
    if rows.isEmpty then some ([page], cs)
    else
      match runPages src sk pending fuel (page + 1) (scanRows pending sk rows cs) with
      | none => none
      | some (ps, cs') => some (page :: ps, cs')

/-- The pending set `skill_character_map[sk]` built from the input
characters: names of all characters whose profession maps to `sk`. -/
def pendingNames (cs : List Character) (sk : Skill) : List String :=
  (cs.filter (fun c => sk ∈ PROFESSION_SKILL_MAP c.profession)).map (fun c => c.name)

/-- The `for skill, url in SKILL_URL_MAP.items()` loop of
`update_skills`: skip skills with an empty pending set, else paginate;
accumulates every (skill, page) fetch issued. -/
def enrichLoop (src : Source) (fuel : Nat) (pend : Skill → List String) :
    List Skill → List Character → Option (List (Skill × Nat) × List Character)
  | [], cs => some ([], cs)
  | sk :: rest, cs =>
    if (pend sk).isEmpty then enrichLoop src fuel pend rest cs
    else
      match runPages src sk (pend sk) fuel 0 cs with
      | none => none
      | some (ps, cs') =>
        match enrichLoop src fuel pend rest cs' with
        | none => none
        | some (fs, cs'') => some (ps.map (fun p => (sk, p)) ++ fs, cs'')

/-- `update_skills` in `market.py` (fuelled): the pending sets are built
once from the input characters, then each skill's leaderboard is paged. -/
def update_skills (src : Source) (fuel : Nat) (cs : List Character) :
    Option (List (Skill × Nat) × List Character) :=
  enrichLoop src fuel (pendingNames cs) skillOrder cs

/-- One cell of the exported table: a string, a number, or null
(Python `None`, rendered empty). -/
inductive Cell where
  | s : String → Cell
  | n : Int → Cell
  | null : Cell
deriving DecidableEq

/-- `skills.get(sk)` rendered as a cell. -/
def cellOf : Option Int → Cell
  | some v => .n v
  | none => .null

/-- The fixed header row of `save_auctions_to`. -/
def headers : List String :=
  ["name", "price", "profession", "lvl", "sword", "axe", "club", "dist", "magic", "shielding"]

/-- `map_auction` in `save_auctions_to`: one output row per auction. -/
def map_auction (a : Auction) : List Cell :=
  [ .s a.character.name,
    .n a.price,
    .s a.character.profession.name,
    .n a.character.lvl,
    cellOf (a.character.skills .SWORD),
    cellOf (a.character.skills .AXE),
    cellOf (a.character.skills .CLUB),
    cellOf (a.character.skills .DISTANCE),
    cellOf (a.character.skills .MAGIC),
    cellOf (a.character.skills .SHIELDING) ]

/-- `save_auctions_to` reduced to its data: the header row and the data
rows, in input order. -/
def save_auctions_to (auctions : List Auction) : List String × List (List Cell) :=
  (headers, auctions.map map_auction)

/-- Column index of each skill in an exported row. -/
def skillCol : Skill → Nat
  | .SWORD => 4
  | .AXE => 5
  | .CLUB => 6
  | .DISTANCE => 7
  | .MAGIC => 8
  | .SHIELDING => 9

/-- `update_skills` as it acts on the auction list of `main`: the
auctions alias the character list positionally. -/
def enrich_auctions (src : Source) (fuel : Nat) (auctions : List Auction) :
    Option (List Auction) :=
  match update_skills src fuel (auctions.map (fun a => a.character)) with
  | none => none
  | some (_, cs') => some (List.zipWith (fun a c => { a with character := c }) auctions cs')

/-- The `main` pipeline: collect auctions from the listing rows, enrich
their characters, export. -/
def runPipeline (rows : List (List String)) (src : Source) (fuel : Nat) :
    Option (List String × List (List Cell)) :=
  match rows.mapM Auction.create with
  | none => none
  | some auctions =>
    match enrich_auctions src fuel auctions with
    | none => none
    | some auctions' => some (save_auctions_to auctions')

/-- The spec's end-to-end scenario: listing rows for Aria and Bo. -/
def demoRows : List (List String) :=
  [["Aria", "120 Elite Knight", "5000 gold"],
   ["Bo", "80 Master Sorcerer", "2000 gold"]]

/-- The spec's end-to-end leaderboard source: Sword page 0 has the data
row (Aria, 450), Magic page 0 has (Bo, 300) (each after a header row);
every other page of every leaderboard is empty. -/
def demoSrc : Source := fun sk page =>
  match sk, page with
  | .SWORD, 0 => [("header", 0), ("Aria", 450)]
  | .MAGIC, 0 => [("header", 0), ("Bo", 300)]
  | _, _ => []

/-- Position of a profession in the match order of `Profession.values()`. -/
def profIdx : Profession → Nat
  | .KNIGHT => 0
  | .SORCERER => 1
  | .DRUID => 2
  | .PALADIN => 3

/-- Structural decimal digit list of a natural number, used to reason
about `Nat.repr`. -/
def myDigits (n : Nat) : List Char :=
  if h : n < 10 then [Nat.digitChar n]
  else myDigits (n / 10) ++ [Nat.digitChar (n % 10)]
decreasing_by exact Nat.div_lt_self (by omega) (by omega)

/-- `nm` appears on some data row of skill `sk`'s leaderboard (any page,
after the header row that the code drops). -/
def AppearsIn (src : Source) (sk : Skill) (nm : String) : Prop :=
  ∃ p r, r ∈ (src sk p).drop 1 ∧ r.1 = nm

/-- Frame relation between a character before and after enrichment
steps: identity except that skills `s` whose (skill, name) pair is in
`touched` may change. -/
def EnrichStep (touched : Skill → String → Prop) (c c' : Character) : Prop :=
  c'.name = c.name ∧ c'.profession = c.profession ∧ c'.lvl = c.lvl ∧
    ∀ s, ¬ touched s c.name → c'.skills s = c.skills s

/-- A leaderboard source all of whose pages are empty. -/
def emptySrc : Source := fun _ _ => []

/-- A single knight character with no skills recorded yet. -/
def soloKnight : Character := ⟨"Solo", .KNIGHT, 10, fun _ => none⟩

/-- The Aria character of the end-to-end scenario, as created. -/
def ariaChar : Character := ⟨"Aria", .KNIGHT, 120, fun _ => none⟩

/-- The Bo character of the end-to-end scenario, as created. -/
def boChar : Character := ⟨"Bo", .SORCERER, 80, fun _ => none⟩

/-- A knight character used in the duplicate-name scenario. -/
def dupChar : Character := ⟨"Dup", .KNIGHT, 50, fun _ => none⟩

/-- A source whose Sword leaderboard lists the duplicated name once. -/
def dupSrc : Source := fun sk page =>
  match sk, page with
  | .SWORD, 0 => [("header", 0), ("Dup", 7)]
  | _, _ => []

/-- A concrete enriched auction used to witness the exporter shape. -/
def witnessAuction : Auction :=
  ⟨⟨"Aria", .KNIGHT, 120, fun s => if s = Skill.SWORD then some 450 else none⟩, 5000⟩

end Market

namespace Market

lemma strContainsAux_iff (n : List Char) : ∀ hs : List Char,
    strContainsAux n hs = true ↔ n <:+: hs
  | [] => by simp [strContainsAux, List.isEmpty_iff, List.infix_nil]
  | c :: rest => by
    simp [strContainsAux, strContainsAux_iff n rest, List.infix_cons_iff,
      List.isPrefixOf_iff_prefix]

lemma strContains_iff (needle hay : String) :
    strContains needle hay = true ↔ needle.data <:+: hay.data :=
  strContainsAux_iff _ _

lemma find_eq_cases (text : String) :
    Profession.find text =
      (if strContains Profession.KNIGHT.value text then some Profession.KNIGHT
       else if strContains Profession.SORCERER.value text then some Profession.SORCERER
       else if strContains Profession.DRUID.value text then some Profession.DRUID
       else if strContains Profession.PALADIN.value text then some Profession.PALADIN
       else none) := by
  cases hK : strContains Profession.KNIGHT.value text <;>
    cases hS : strContains Profession.SORCERER.value text <;>
      cases hD : strContains Profession.DRUID.value text <;>
        cases hP : strContains Profession.PALADIN.value text <;>
          simp [Profession.find, Profession.values, List.find?, hK, hS, hD, hP]

lemma find_none_iff (text : String) :
    (Profession.find text = none) ↔ ∀ p : Profession, strContains p.value text = false := by
  simp only [Profession.find, List.find?_eq_none]
  constructor
  · intro h p
    have := h p (by cases p <;> simp [Profession.values])
    simpa using this
  · intro h p _
    simp [h p]

lemma find_some_first (text : String) (p : Profession)
    (hp : Profession.find text = some p) :
    strContains p.value text = true ∧
      ∀ q : Profession, profIdx q < profIdx p → strContains q.value text = false := by
  rw [find_eq_cases text] at hp
  cases hK : strContains Profession.KNIGHT.value text <;>
    cases hS : strContains Profession.SORCERER.value text <;>
      cases hD : strContains Profession.DRUID.value text <;>
        cases hP : strContains Profession.PALADIN.value text <;>
          rw [hK, hS, hD, hP] at hp <;>
            simp only [if_true, if_false, Option.some.injEq, reduceCtorEq, reduceIte] at hp <;>
              subst hp <;>
                exact ⟨by assumption, fun q hq => by
                  cases q <;> simp only [profIdx] at hq <;> first | assumption | omega⟩

/-- C3: for every text, `Profession.find` returns the first profession in
the order Knight, Sorcerer, Druid, Paladin whose display name occurs as a
substring of the text; it fails (the modelled raise) exactly when no
profession display name occurs; and re-matching a returned profession's
display name yields the same profession. -/
theorem profession_find_first_match_spec :
    (∀ text : String,
      (∀ p : Profession, Profession.find text = some p →
        p.value.data <:+: text.data ∧
          ∀ q : Profession, profIdx q < profIdx p → ¬ q.value.data <:+: text.data) ∧
      ((Profession.find text = none) ↔ ∀ p : Profession, ¬ p.value.data <:+: text.data)) ∧
    (∀ p : Profession, Profession.find (Profession.value p) = some p) := by
  refine ⟨fun text => ⟨fun p hp => ?_, ?_⟩, by decide⟩
  · obtain ⟨h1, h2⟩ := find_some_first text p hp
    refine ⟨(strContains_iff _ _).mp h1, fun q hq hcon => ?_⟩
    exact absurd ((strContains_iff _ _).mpr hcon) (by simp [h2 q hq])
  · rw [find_none_iff]
    simp only [← strContains_iff, Bool.not_eq_true]

theorem profession_find_first_match_spec_witness :
    ("Knight".data <:+: "120 Elite Knight".data) ∧ Profession.find "xyz" = none :=
  ⟨((profession_find_first_match_spec.1 "120 Elite Knight").1 Profession.KNIGHT (by decide)).1,
   (profession_find_first_match_spec.1 "xyz").2.mpr (by decide)⟩

/-- C1: on the spec's concrete end-to-end scenario, collect, enrich and
export produce exactly the two expected output rows, in input order. -/
theorem pipeline_end_to_end_demo :
    runPipeline demoRows demoSrc 10 =
      some (headers,
        [[.s "Aria", .n 5000, .s "KNIGHT", .n 120, .n 450, .null, .null, .null, .null, .null],
         [.s "Bo", .n 2000, .s "SORCERER", .n 80, .null, .null, .null, .null, .n 300, .null]]) :=
  rfl

/-- C8: the exported table has the fixed header order, one row per
auction in input order, the profession cell is the internal enum member
name, and the member name is never the display value. -/
theorem exporter_fixed_shape (auctions : List Auction) :
    save_auctions_to auctions =
        (["name", "price", "profession", "lvl", "sword", "axe", "club", "dist", "magic",
          "shielding"], auctions.map map_auction) ∧
      (save_auctions_to auctions).2.length = auctions.length ∧
      (∀ i a, auctions.get? i = some a →
        (save_auctions_to auctions).2.get? i = some
          [Cell.s a.character.name, Cell.n a.price, Cell.s a.character.profession.name,
           Cell.n a.character.lvl,
           cellOf (a.character.skills .SWORD), cellOf (a.character.skills .AXE),
           cellOf (a.character.skills .CLUB), cellOf (a.character.skills .DISTANCE),
           cellOf (a.character.skills .MAGIC), cellOf (a.character.skills .SHIELDING)]) ∧
      (∀ p : Profession, Profession.name p ≠ Profession.value p) := by
  refine ⟨rfl, by simp [save_auctions_to], fun i a h => ?_, by decide⟩
  show (auctions.map map_auction).get? i = _
  rw [List.get?_map, h]
  rfl

theorem exporter_fixed_shape_witness :
    (save_auctions_to [witnessAuction]).2.get? 0 = some
      [Cell.s "Aria", Cell.n 5000, Cell.s "KNIGHT", Cell.n 120,
       Cell.n 450, Cell.null, Cell.null, Cell.null, Cell.null, Cell.null] :=
  (exporter_fixed_shape [witnessAuction]).2.2.1 0 witnessAuction rfl

end Market

namespace Market

lemma forall2_self {α : Type} {R : α → α → Prop} (h : ∀ a, R a a) :
    ∀ l : List α, List.Forall₂ R l l
  | [] => List.Forall₂.nil
  | _ :: t => List.Forall₂.cons (h _) (forall2_self h t)

lemma forall2_trans {α : Type} {R : α → α → Prop}
    (h : ∀ a b c, R a b → R b c → R a c) :
    ∀ {l₁ l₂ l₃ : List α}, List.Forall₂ R l₁ l₂ → List.Forall₂ R l₂ l₃ →
      List.Forall₂ R l₁ l₃
  | _, _, _, List.Forall₂.nil, List.Forall₂.nil => List.Forall₂.nil
  | _, _, _, List.Forall₂.cons hab h12, List.Forall₂.cons hbc h23 =>
    List.Forall₂.cons (h _ _ _ hab hbc) (forall2_trans h h12 h23)

lemma forall2_getElem? {α : Type} {R : α → α → Prop} {l₁ l₂ : List α}
    (h : List.Forall₂ R l₁ l₂) :
    ∀ (i : Nat) (a b : α), l₁[i]? = some a → l₂[i]? = some b → R a b := by
  induction h with
  | nil => intro i a b h1 _; simp at h1
  | cons hab htail ih =>
    intro i a b h1 h2
    cases i with
    | zero => simp_all
    | succ n => exact ih n a b (by simpa using h1) (by simpa using h2)

lemma forall2_mem_right {α : Type} {R : α → α → Prop} :
    ∀ {l₁ l₂ : List α}, List.Forall₂ R l₁ l₂ → ∀ b ∈ l₂, ∃ a ∈ l₁, R a b
  | _, _, List.Forall₂.nil, b, hb => by simp at hb
  | _, _, List.Forall₂.cons hab h, b, hb => by
    rcases List.mem_cons.mp hb with rfl | hb'
    · exact ⟨_, List.mem_cons_self _ _, hab⟩
    · obtain ⟨a, ha, hr⟩ := forall2_mem_right h b hb'
      exact ⟨a, List.mem_cons_of_mem _ ha, hr⟩

lemma enrichStep_refl (T : Skill → String → Prop) (c : Character) : EnrichStep T c c :=
  ⟨rfl, rfl, rfl, fun _ _ => rfl⟩

lemma enrichStep_trans (T : Skill → String → Prop) (a b c : Character)
    (h1 : EnrichStep T a b) (h2 : EnrichStep T b c) : EnrichStep T a c := by
  obtain ⟨n1, p1, l1, s1⟩ := h1
  obtain ⟨n2, p2, l2, s2⟩ := h2
  refine ⟨n2.trans n1, p2.trans p1, l2.trans l1, fun s hs => ?_⟩
  rw [s2 s (by rwa [n1]), s1 s hs]

lemma enrichStep_mono {T T' : Skill → String → Prop}
    (h : ∀ s x, T s x → T' s x) {c c' : Character}
    (hr : EnrichStep T c c') : EnrichStep T' c c' :=
  ⟨hr.1, hr.2.1, hr.2.2.1, fun s hs => hr.2.2.2 s (fun ht => hs (h _ _ ht))⟩

lemma updateLast_rel (cs : List Character) (nm : String) (sk : Skill) (v : Int) :
    List.Forall₂ (EnrichStep (fun s x => s = sk ∧ x = nm)) cs
      (updateLastByName cs nm sk v) := by
  induction cs with
  | nil => exact List.Forall₂.nil
  | cons c rest ih =>
    rw [updateLastByName]
    by_cases h1 : rest.any (fun d => d.name = nm) = true
    · rw [if_pos h1]
      exact List.Forall₂.cons (enrichStep_refl _ c) ih
    · rw [if_neg h1]
      by_cases h2 : c.name = nm
      · rw [if_pos (by simpa using h2)]
        refine List.Forall₂.cons ?_ (forall2_self (enrichStep_refl _) rest)
        refine ⟨rfl, rfl, rfl, fun s hs => ?_⟩
        have hssk : ¬ s = sk := fun h => hs ⟨h, h2⟩
        simp [setSkill, hssk]
      · rw [if_neg (by simpa using h2)]
        exact List.Forall₂.cons (enrichStep_refl _ c)
          (forall2_self (enrichStep_refl _) rest)

lemma scanRows_rel (pending : List String) (sk : Skill) :
    ∀ (rows : List (String × Int)) (cs : List Character),
      List.Forall₂ (EnrichStep (fun s x => s = sk ∧ x ∈ rows.map Prod.fst)) cs
        (scanRows pending sk rows cs)
  | [], cs => forall2_self (enrichStep_refl _) cs
  | r :: rs, cs => by
    rw [scanRows, List.foldl_cons]
    have hstep : List.Forall₂ (EnrichStep (fun s x => s = sk ∧ x ∈ (r :: rs).map Prod.fst))
        cs (if r.1 ∈ pending then updateLastByName cs r.1 sk r.2 else cs) := by
      by_cases hmem : r.1 ∈ pending
      · rw [if_pos hmem]
        refine (updateLast_rel cs r.1 sk r.2).imp (fun _ _ hr => enrichStep_mono ?_ hr)
        rintro s x ⟨rfl, rfl⟩
        exact ⟨rfl, by simp⟩
      · rw [if_neg hmem]
        exact forall2_self (enrichStep_refl _) cs
    have htail := scanRows_rel pending sk rs
      (if r.1 ∈ pending then updateLastByName cs r.1 sk r.2 else cs)
    rw [scanRows] at htail
    refine forall2_trans (enrichStep_trans _) hstep
      (htail.imp (fun _ _ hr => enrichStep_mono ?_ hr))
    rintro s x ⟨rfl, hx⟩
    exact ⟨rfl, by simp [hx]⟩

lemma runPages_rel (src : Source) (sk : Skill) (pending : List String) :
    ∀ (fuel page : Nat) (cs ps2 : List Character),
      (∃ ps : List Nat, runPages src sk pending fuel page cs = some (ps, ps2)) →
      List.Forall₂ (EnrichStep (fun s x => s = sk ∧ AppearsIn src sk x)) cs ps2
  | 0, page, cs, ps2 => by simp [runPages]
  | fuel + 1, page, cs, ps2 => by
    rintro ⟨ps, h⟩
    rw [runPages] at h
    by_cases hrows : ((src sk page).drop 1).isEmpty = true
    · rw [if_pos hrows] at h
      obtain ⟨rfl, rfl⟩ : ps = [page] ∧ cs = ps2 := by
        simpa [Prod.ext_iff, eq_comm] using h
      exact forall2_self (enrichStep_refl _) cs
    · rw [if_neg hrows] at h
      rcases hrec : runPages src sk pending fuel (page + 1)
          (scanRows pending sk ((src sk page).drop 1) cs) with _ | pr
      · rw [hrec] at h; simp at h
      · rw [hrec] at h
        obtain ⟨ps1, cs1⟩ := pr
        obtain ⟨rfl, rfl⟩ : ps = page :: ps1 ∧ cs1 = ps2 := by
          simpa [Prod.ext_iff, eq_comm] using h
        have h1 := scanRows_rel pending sk ((src sk page).drop 1) cs
        have h2 := runPages_rel src sk pending fuel (page + 1) _ _ ⟨ps1, hrec⟩
        refine forall2_trans (enrichStep_trans _)
          (h1.imp (fun _ _ hr => enrichStep_mono ?_ hr)) h2
        rintro s x ⟨rfl, hx⟩
        obtain ⟨r, hr, hrx⟩ := List.mem_map.mp hx
        exact ⟨rfl, page, r, hr, hrx⟩

lemma enrichLoop_rel (src : Source) (fuel : Nat) (pend : Skill → List String) :
    ∀ (sks : List Skill) (cs cs2 : List Character),
      (∃ fs, enrichLoop src fuel pend sks cs = some (fs, cs2)) →
      List.Forall₂
        (EnrichStep (fun s x => s ∈ sks ∧ pend s ≠ [] ∧ AppearsIn src s x)) cs cs2
  | [], cs, cs2 => by
    rintro ⟨fs, h⟩
    obtain ⟨rfl, rfl⟩ : fs = [] ∧ cs = cs2 := by
      simpa [enrichLoop, Prod.ext_iff, eq_comm] using h
    exact forall2_self (enrichStep_refl _) cs
  | sk :: rest, cs, cs2 => by
    rintro ⟨fs, h⟩
    rw [enrichLoop] at h
    by_cases hpe : (pend sk).isEmpty = true
    · rw [if_pos hpe] at h
      refine (enrichLoop_rel src fuel pend rest cs cs2 ⟨fs, h⟩).imp
        (fun _ _ hr => enrichStep_mono ?_ hr)
      rintro s x ⟨hs, hp, ha⟩
      exact ⟨List.mem_cons_of_mem _ hs, hp, ha⟩
    · rw [if_neg hpe] at h
      rcases hrun : runPages src sk (pend sk) fuel 0 cs with _ | pr
      · rw [hrun] at h; simp at h
      · rw [hrun] at h
        obtain ⟨ps1, cs1⟩ := pr
        dsimp only at h
        rcases hloop : enrichLoop src fuel pend rest cs1 with _ | pr2
        · rw [hloop] at h; simp at h
        · rw [hloop] at h
          obtain ⟨fs2, cs3⟩ := pr2
          obtain ⟨rfl, rfl⟩ : fs = ps1.map (fun p => (sk, p)) ++ fs2 ∧ cs3 = cs2 := by
            simpa [Prod.ext_iff, eq_comm] using h
          have h1 := runPages_rel src sk (pend sk) fuel 0 cs cs1 ⟨ps1, hrun⟩
          have h2 := enrichLoop_rel src fuel pend rest cs1 _ ⟨fs2, hloop⟩
          refine forall2_trans (enrichStep_trans _)
            (h1.imp (fun _ _ hr => enrichStep_mono ?_ hr))
            (h2.imp (fun _ _ hr => enrichStep_mono ?_ hr))
          · rintro s x ⟨rfl, ha⟩
            exact ⟨List.mem_cons_self _ _, by simpa using hpe, ha⟩
          · rintro s x ⟨hs, hp, ha⟩
            exact ⟨List.mem_cons_of_mem _ hs, hp, ha⟩

lemma enrichLoop_fetches (src : Source) (fuel : Nat) (pend : Skill → List String) :
    ∀ (sks : List Skill) (cs : List Character) (fs : List (Skill × Nat))
      (cs2 : List Character),
      enrichLoop src fuel pend sks cs = some (fs, cs2) →
      ∀ e ∈ fs, e.1 ∈ sks ∧ pend e.1 ≠ []
  | [], cs, fs, cs2 => by
    intro h
    obtain ⟨rfl, rfl⟩ : fs = [] ∧ cs = cs2 := by
      simpa [enrichLoop, Prod.ext_iff, eq_comm] using h
    simp
  | sk :: rest, cs, fs, cs2 => by
    intro h
    rw [enrichLoop] at h
    by_cases hpe : (pend sk).isEmpty = true
    · rw [if_pos hpe] at h
      intro e he
      have := enrichLoop_fetches src fuel pend rest cs fs cs2 h e he
      exact ⟨List.mem_cons_of_mem _ this.1, this.2⟩
    · rw [if_neg hpe] at h
      rcases hrun : runPages src sk (pend sk) fuel 0 cs with _ | pr
      · rw [hrun] at h; simp at h
      · rw [hrun] at h
        obtain ⟨ps1, cs1⟩ := pr
        dsimp only at h
        rcases hloop : enrichLoop src fuel pend rest cs1 with _ | pr2
        · rw [hloop] at h; simp at h
        · rw [hloop] at h
          obtain ⟨fs2, cs3⟩ := pr2
          obtain ⟨rfl, rfl⟩ : fs = ps1.map (fun p => (sk, p)) ++ fs2 ∧ cs3 = cs2 := by
            simpa [Prod.ext_iff, eq_comm] using h
          intro e he
          rcases List.mem_append.mp he with hm | hm
          · obtain ⟨p, _, rfl⟩ := List.mem_map.mp hm
            exact ⟨List.mem_cons_self _ _, by simpa using hpe⟩
          · have := enrichLoop_fetches src fuel pend rest cs1 fs2 cs3 hloop e hm
            exact ⟨List.mem_cons_of_mem _ this.1, this.2⟩

end Market

namespace Market

/-- C5: a skill whose pending character set is empty is skipped
entirely: no leaderboard page of it is ever fetched. -/
theorem empty_pending_no_fetch (src : Source) (fuel : Nat) (cs : List Character)
    (sk : Skill) (fs : List (Skill × Nat)) (cs' : List Character)
    (hpend : pendingNames cs sk = [])
    (h : update_skills src fuel cs = some (fs, cs')) :
    ∀ p : Nat, (sk, p) ∉ fs := by
  intro p hmem
  exact (enrichLoop_fetches src fuel (pendingNames cs) skillOrder cs fs cs' h
    (sk, p) hmem).2 hpend

theorem empty_pending_no_fetch_witness :
    (Skill.MAGIC, 0) ∉
      ([(Skill.SWORD, 0), (Skill.AXE, 0), (Skill.CLUB, 0)] : List (Skill × Nat)) :=
  empty_pending_no_fetch emptySrc 1 [soloKnight] Skill.MAGIC _ _ rfl rfl 0

/-- C7: no profession maps to Shielding, so its pending set is always
empty, no Shielding page is ever fetched, no character ever acquires a
Shielding entry, and the shielding column exports as null. -/
theorem shielding_never_enriched (src : Source) (fuel : Nat) (cs : List Character)
    (fs : List (Skill × Nat)) (cs' : List Character)
    (h : update_skills src fuel cs = some (fs, cs'))
    (hinit : ∀ c ∈ cs, c.skills .SHIELDING = none) :
    pendingNames cs .SHIELDING = [] ∧
    (∀ p : Nat, (Skill.SHIELDING, p) ∉ fs) ∧
    (∀ c' ∈ cs', c'.skills .SHIELDING = none ∧
      ∀ price : Int, (map_auction ⟨c', price⟩).get? 9 = some Cell.null) := by
  have hpend : pendingNames cs .SHIELDING = [] := by
    rw [pendingNames]
    have hfil : cs.filter (fun c => Skill.SHIELDING ∈ PROFESSION_SKILL_MAP c.profession) = [] := by
      rw [List.filter_eq_nil_iff]
      intro c _
      cases hc : c.profession <;> simp [PROFESSION_SKILL_MAP, hc]
    rw [hfil]
    rfl
  refine ⟨hpend, fun p hmem => ?_, fun c' hc' => ?_⟩
  · exact (enrichLoop_fetches src fuel (pendingNames cs) skillOrder cs fs cs' h
      (Skill.SHIELDING, p) hmem).2 hpend
  · have hrel := enrichLoop_rel src fuel (pendingNames cs) skillOrder cs cs' ⟨fs, h⟩
    obtain ⟨c, hcmem, hstep⟩ := forall2_mem_right hrel c' hc'
    have hnone : c'.skills .SHIELDING = none := by
      rw [hstep.2.2.2 Skill.SHIELDING (fun hT => hT.2.1 hpend)]
      exact hinit c hcmem
    exact ⟨hnone, fun price => by simp [map_auction, List.get?, hnone, cellOf]⟩

theorem shielding_never_enriched_witness :
    (Skill.SHIELDING, 0) ∉
      ([(Skill.SWORD, 0), (Skill.AXE, 0), (Skill.CLUB, 0)] : List (Skill × Nat)) :=
  (shielding_never_enriched emptySrc 1 [soloKnight] _ _ rfl
    (fun c hc => by rw [List.mem_singleton.mp hc]; rfl)).2.1 0

/-- C9: enrichment only writes skill mappings: every auction keeps its
price and every character keeps its name, profession and level, and no
auction is added or removed. -/
theorem enrichment_frame (src : Source) (fuel : Nat) (auctions as' : List Auction)
    (h : enrich_auctions src fuel auctions = some as') :
    as'.length = auctions.length ∧
    ∀ (i : Nat) (a a' : Auction), auctions[i]? = some a → as'[i]? = some a' →
      a'.price = a.price ∧ a'.character.name = a.character.name ∧
        a'.character.profession = a.character.profession ∧
        a'.character.lvl = a.character.lvl := by
  rw [enrich_auctions] at h
  rcases hupd : update_skills src fuel (auctions.map (fun a => a.character)) with _ | pr
  · rw [hupd] at h; simp at h
  · rw [hupd] at h
    obtain ⟨fs, cs'⟩ := pr
    dsimp only at h
    have has' : as' = List.zipWith (fun a c => { a with character := c }) auctions cs' := by
      simpa [eq_comm] using h
    have hupd' : enrichLoop src fuel
        (pendingNames (auctions.map (fun a => a.character))) skillOrder
        (auctions.map (fun a => a.character)) = some (fs, cs') := hupd
    have hrel := enrichLoop_rel src fuel (pendingNames (auctions.map (fun a => a.character)))
      skillOrder (auctions.map (fun a => a.character)) cs' ⟨fs, hupd'⟩
    have hlen : cs'.length = auctions.length := by
      have := hrel.length_eq
      simpa using this.symm
    subst has'
    constructor
    · rw [List.length_zipWith]
      omega
    · intro i a a' ha ha'
      obtain ⟨x, y, hx, hy, hxy⟩ := List.getElem?_zipWith_eq_some.mp ha'
      rw [ha] at hx
      obtain rfl : a = x := by simpa using hx
      have hchar : (auctions.map (fun a => a.character))[i]? = some a.character := by
        rw [List.getElem?_map, ha]
        rfl
      have hstep := forall2_getElem? hrel i a.character y hchar hy
      subst hxy
      exact ⟨rfl, hstep.1, hstep.2.1, hstep.2.2.1⟩

theorem enrichment_frame_witness :
    ([(⟨soloKnight, 999⟩ : Auction)].length = [(⟨soloKnight, 999⟩ : Auction)].length) ∧
      ((999 : Int) = 999 ∧ "Solo" = "Solo" ∧ Profession.KNIGHT = Profession.KNIGHT ∧
        (10 : Int) = 10) :=
  ⟨(enrichment_frame emptySrc 1 [⟨soloKnight, 999⟩] [⟨soloKnight, 999⟩] rfl).1,
   (enrichment_frame emptySrc 1 [⟨soloKnight, 999⟩] [⟨soloKnight, 999⟩] rfl).2 0
     ⟨soloKnight, 999⟩ ⟨soloKnight, 999⟩ rfl rfl⟩

end Market

namespace Market

/-- C6: a character absent from every data row of an applicable skill's
leaderboard finishes enrichment with no entry for that skill and its
exported cell for that skill is null. -/
theorem missing_skill_silent (src : Source) (fuel : Nat) (cs : List Character)
    (sk : Skill) (nm : String) (fs : List (Skill × Nat)) (cs' : List Character)
    (h : update_skills src fuel cs = some (fs, cs'))
    (habsent : ∀ (p : Nat), ∀ r ∈ (src sk p).drop 1, r.1 ≠ nm) :
    ∀ (i : Nat) (c c' : Character), cs[i]? = some c → cs'[i]? = some c' →
      c.name = nm → sk ∈ PROFESSION_SKILL_MAP c.profession → c.skills sk = none →
        c'.skills sk = none ∧
          ∀ price : Int, (map_auction ⟨c', price⟩).get? (skillCol sk) = some Cell.null := by
  intro i c c' hc hc' hname hap hnone
  have hrel := enrichLoop_rel src fuel (pendingNames cs) skillOrder cs cs' ⟨fs, h⟩
  have hstep := forall2_getElem? hrel i c c' hc hc'
  have hskills : c'.skills sk = c.skills sk := by
    apply hstep.2.2.2
    rintro ⟨_, _, p, r, hr, hrnm⟩
    exact habsent p r hr (by rw [hrnm, hname])
  have hn : c'.skills sk = none := hskills.trans hnone
  refine ⟨hn, fun price => ?_⟩
  cases sk <;> simp [map_auction, skillCol, List.get?, hn, cellOf]

theorem missing_skill_silent_witness :
    soloKnight.skills Skill.SWORD = none ∧
      (map_auction ⟨soloKnight, 5000⟩).get? (skillCol Skill.SWORD) = some Cell.null := by
  have base := missing_skill_silent emptySrc 1 [soloKnight] Skill.SWORD "Solo" _ _ rfl
    (fun p r hr => by simp [emptySrc] at hr) 0 soloKnight soloKnight rfl rfl rfl
    (by decide) rfl
  exact ⟨base.1, base.2 5000⟩

lemma forall2_getElem?_right {α : Type} {R : α → α → Prop} {l₁ l₂ : List α}
    (h : List.Forall₂ R l₁ l₂) :
    ∀ (i : Nat) (a : α), l₁[i]? = some a → ∃ b, l₂[i]? = some b ∧ R a b := by
  induction h with
  | nil => intro i a h1; simp at h1
  | cons hab htail ih =>
    intro i a h1
    cases i with
    | zero =>
      obtain rfl : _ = a := by simpa using h1
      exact ⟨_, by simp, hab⟩
    | succ n =>
      obtain ⟨b, hb, hr⟩ := ih n a (by simpa using h1)
      exact ⟨b, by simpa using hb, hr⟩

lemma updateLast_keeps_ne (nm : String) (sk : Skill) (v : Int) :
    ∀ (cs : List Character) (k : Nat) (ck : Character), cs[k]? = some ck →
      ck.name ≠ nm → (updateLastByName cs nm sk v)[k]? = some ck
  | [], k, ck => by simp
  | c :: rest, k, ck => by
    intro hck hne
    rw [updateLastByName]
    by_cases h1 : rest.any (fun d => d.name = nm) = true
    · rw [if_pos h1]
      cases k with
      | zero => simpa using hck
      | succ n =>
        have := updateLast_keeps_ne nm sk v rest n ck (by simpa using hck) hne
        simpa using this
    · rw [if_neg h1]
      cases k with
      | zero =>
        obtain rfl : c = ck := by simpa using hck
        rw [if_neg (by simpa using hne)]
        simp
      | succ n =>
        by_cases h2 : c.name = nm
        · rw [if_pos (by simpa using h2)]
          simpa using hck
        · rw [if_neg (by simpa using h2)]
          simpa using hck

lemma updateLast_keeps (nm : String) (sk : Skill) (v : Int) :
    ∀ (cs : List Character) (i : Nat) (ci : Character), cs[i]? = some ci →
      (∃ (j : Nat) (cj : Character), i < j ∧ cs[j]? = some cj ∧ cj.name = ci.name) →
      (updateLastByName cs nm sk v)[i]? = some ci
  | [], i, ci => by simp
  | c :: rest, i, ci => by
    rintro hci ⟨j, cj, hij, hcj, hjname⟩
    rw [updateLastByName]
    by_cases h1 : rest.any (fun d => d.name = nm) = true
    · rw [if_pos h1]
      cases i with
      | zero => simpa using hci
      | succ n =>
        obtain ⟨m, rfl⟩ : ∃ m, j = m + 1 := ⟨j - 1, by omega⟩
        have := updateLast_keeps nm sk v rest n ci (by simpa using hci)
          ⟨m, cj, by omega, by simpa using hcj, hjname⟩
        simpa using this
    · rw [if_neg h1]
      cases i with
      | zero =>
        obtain rfl : c = ci := by simpa using hci
        obtain ⟨m, rfl⟩ : ∃ m, j = m + 1 := ⟨j - 1, by omega⟩
        have hcjmem : cj ∈ rest := List.getElem?_mem (by simpa using hcj)
        by_cases h2 : c.name = nm
        · exact absurd (List.any_eq_true.mpr ⟨cj, hcjmem, by simp [hjname, h2]⟩) h1
        · rw [if_neg (by simpa using h2)]
          simp
      | succ n =>
        by_cases h2 : c.name = nm
        · rw [if_pos (by simpa using h2)]
          simpa using hci
        · rw [if_neg (by simpa using h2)]
          simpa using hci

lemma updateLast_writes_last (nm : String) (sk : Skill) (v : Int) :
    ∀ (cs : List Character) (k : Nat) (ck : Character), cs[k]? = some ck →
      ck.name = nm →
      (∀ (m : Nat) (cm : Character), k < m → cs[m]? = some cm → cm.name ≠ nm) →
      (updateLastByName cs nm sk v)[k]? = some (setSkill ck sk v)
  | [], k, ck => by simp
  | c :: rest, k, ck => by
    intro hck hname hlast
    rw [updateLastByName]
    cases k with
    | zero =>
      obtain rfl : c = ck := by simpa using hck
      have h1 : rest.any (fun d => d.name = nm) = false := by
        rw [List.any_eq_false]
        intro d hd
        obtain ⟨m, hm⟩ := List.getElem?_of_mem hd
        have := hlast (m + 1) d (by omega) (by simpa using hm)
        simpa using this
      rw [if_neg (by simp [h1]), if_pos (by simpa using hname)]
      simp
    | succ n =>
      have hmem : ck ∈ rest := List.getElem?_mem (by simpa using hck)
      have h1 : rest.any (fun d => d.name = nm) = true :=
        List.any_eq_true.mpr ⟨ck, hmem, by simp [hname]⟩
      rw [if_pos h1]
      have := updateLast_writes_last nm sk v rest n ck (by simpa using hck) hname
        (fun m cm hm hcm => hlast (m + 1) cm (by omega) (by simpa using hcm))
      simpa using this

end Market

namespace Market

lemma scanRows_cons (pending : List String) (sk : Skill) (r : String × Int)
    (rs : List (String × Int)) (cs : List Character) :
    scanRows pending sk (r :: rs) cs =
      scanRows pending sk rs
        (if r.1 ∈ pending then updateLastByName cs r.1 sk r.2 else cs) := rfl

lemma scanRows_keeps (pending : List String) (sk : Skill) :
    ∀ (rows : List (String × Int)) (cs : List Character) (i : Nat) (ci : Character),
      cs[i]? = some ci →
      (∃ (j : Nat) (cj : Character), i < j ∧ cs[j]? = some cj ∧ cj.name = ci.name) →
      (scanRows pending sk rows cs)[i]? = some ci
  | [], cs, i, ci => by
    intro h _
    simpa [scanRows] using h
  | r :: rs, cs, i, ci => by
    rintro hci ⟨j, cj, hij, hcj, hjn⟩
    rw [scanRows_cons]
    have hstep : List.Forall₂ (EnrichStep (fun s x => s = sk ∧ x = r.1)) cs
        (if r.1 ∈ pending then updateLastByName cs r.1 sk r.2 else cs) := by
      by_cases hmem : r.1 ∈ pending
      · rw [if_pos hmem]; exact updateLast_rel cs r.1 sk r.2
      · rw [if_neg hmem]; exact forall2_self (enrichStep_refl _) cs
    have hci1 : (if r.1 ∈ pending then updateLastByName cs r.1 sk r.2 else cs)[i]? =
        some ci := by
      by_cases hmem : r.1 ∈ pending
      · rw [if_pos hmem]
        exact updateLast_keeps r.1 sk r.2 cs i ci hci ⟨j, cj, hij, hcj, hjn⟩
      · rw [if_neg hmem]; exact hci
    obtain ⟨cj1, hcj1, hrel⟩ := forall2_getElem?_right hstep j cj hcj
    exact scanRows_keeps pending sk rs _ i ci hci1 ⟨j, cj1, hij, hcj1, hrel.1.trans hjn⟩

lemma runPages_keeps (src : Source) (sk : Skill) (pending : List String) :
    ∀ (fuel page : Nat) (cs : List Character) (ps : List Nat) (cs' : List Character),
      runPages src sk pending fuel page cs = some (ps, cs') →
      ∀ (i : Nat) (ci : Character), cs[i]? = some ci →
        (∃ (j : Nat) (cj : Character), i < j ∧ cs[j]? = some cj ∧ cj.name = ci.name) →
        cs'[i]? = some ci
  | 0, page, cs, ps, cs' => by simp [runPages]
  | fuel + 1, page, cs, ps, cs' => by
    intro h i ci hci hlater
    rw [runPages] at h
    by_cases hrows : ((src sk page).drop 1).isEmpty = true
    · rw [if_pos hrows] at h
      obtain ⟨rfl, rfl⟩ : ps = [page] ∧ cs = cs' := by
        simpa [Prod.ext_iff, eq_comm] using h
      exact hci
    · rw [if_neg hrows] at h
      rcases hrec : runPages src sk pending fuel (page + 1)
          (scanRows pending sk ((src sk page).drop 1) cs) with _ | pr
      · rw [hrec] at h; simp at h
      · rw [hrec] at h
        obtain ⟨ps1, cs1⟩ := pr
        obtain ⟨rfl, rfl⟩ : ps = page :: ps1 ∧ cs1 = cs' := by
          simpa [Prod.ext_iff, eq_comm] using h
        have hsc := scanRows_keeps pending sk ((src sk page).drop 1) cs i ci hci hlater
        obtain ⟨j, cj, hij, hcj, hjn⟩ := hlater
        obtain ⟨cj1, hcj1, hrel⟩ := forall2_getElem?_right
          (scanRows_rel pending sk ((src sk page).drop 1) cs) j cj hcj
        exact runPages_keeps src sk pending fuel (page + 1) _ ps1 _ hrec i ci hsc
          ⟨j, cj1, hij, hcj1, hrel.1.trans hjn⟩

lemma enrichLoop_keeps (src : Source) (fuel : Nat) (pend : Skill → List String) :
    ∀ (sks : List Skill) (cs : List Character) (fs : List (Skill × Nat))
      (cs' : List Character),
      enrichLoop src fuel pend sks cs = some (fs, cs') →
      ∀ (i : Nat) (ci : Character), cs[i]? = some ci →
        (∃ (j : Nat) (cj : Character), i < j ∧ cs[j]? = some cj ∧ cj.name = ci.name) →
        cs'[i]? = some ci
  | [], cs, fs, cs' => by
    intro h i ci hci _
    obtain ⟨rfl, rfl⟩ : fs = [] ∧ cs = cs' := by
      simpa [enrichLoop, Prod.ext_iff, eq_comm] using h
    exact hci
  | sk :: rest, cs, fs, cs' => by
    intro h i ci hci hlater
    rw [enrichLoop] at h
    by_cases hpe : (pend sk).isEmpty = true
    · rw [if_pos hpe] at h
      exact enrichLoop_keeps src fuel pend rest cs fs cs' h i ci hci hlater
    · rw [if_neg hpe] at h
      rcases hrun : runPages src sk (pend sk) fuel 0 cs with _ | pr
      · rw [hrun] at h; simp at h
      · rw [hrun] at h
        obtain ⟨ps1, cs1⟩ := pr
        dsimp only at h
        rcases hloop : enrichLoop src fuel pend rest cs1 with _ | pr2
        · rw [hloop] at h; simp at h
        · rw [hloop] at h
          obtain ⟨fs2, cs3⟩ := pr2
          obtain ⟨rfl, rfl⟩ : fs = ps1.map (fun p => (sk, p)) ++ fs2 ∧ cs3 = cs' := by
            simpa [Prod.ext_iff, eq_comm] using h
          have hk1 := runPages_keeps src sk (pend sk) fuel 0 cs ps1 cs1 hrun i ci hci hlater
          obtain ⟨j, cj, hij, hcj, hjn⟩ := hlater
          obtain ⟨cj1, hcj1, hrel⟩ := forall2_getElem?_right
            (runPages_rel src sk (pend sk) fuel 0 cs cs1 ⟨ps1, hrun⟩) j cj hcj
          exact enrichLoop_keeps src fuel pend rest cs1 fs2 _ hloop i ci hk1
            ⟨j, cj1, hij, hcj1, hrel.1.trans hjn⟩

/-- C10: the enricher's name index keeps only the last character with a
given name, so a character that is followed (at a higher index) by a
same-named character is never modified by enrichment, and a single skill
write lands exactly on the last character bearing the name. -/
theorem duplicate_name_last_wins (src : Source) (fuel : Nat) (cs : List Character)
    (fs : List (Skill × Nat)) (cs' : List Character)
    (h : update_skills src fuel cs = some (fs, cs')) :
    (∀ (i : Nat) (ci : Character), cs[i]? = some ci →
      (∃ (j : Nat) (cj : Character), i < j ∧ cs[j]? = some cj ∧ cj.name = ci.name) →
      cs'[i]? = some ci) ∧
    (∀ (ds : List Character) (nm : String) (sk : Skill) (v : Int) (k : Nat)
      (ck : Character), ds[k]? = some ck →
        ((ck.name ≠ nm ∨
            ∃ (m : Nat) (cm : Character), k < m ∧ ds[m]? = some cm ∧ cm.name = nm) →
          (updateLastByName ds nm sk v)[k]? = some ck) ∧
        (ck.name = nm →
          (∀ (m : Nat) (cm : Character), k < m → ds[m]? = some cm → cm.name ≠ nm) →
          (updateLastByName ds nm sk v)[k]? = some (setSkill ck sk v))) := by
  refine ⟨fun i ci hci hlater =>
    enrichLoop_keeps src fuel (pendingNames cs) skillOrder cs fs cs' h i ci hci hlater,
    fun ds nm sk v k ck hck => ⟨fun hcase => ?_, fun hname hlast =>
      updateLast_writes_last nm sk v ds k ck hck hname hlast⟩⟩
  rcases hcase with hne | ⟨m, cm, hm, hcm, hcmname⟩
  · exact updateLast_keeps_ne nm sk v ds k ck hck hne
  · by_cases heq : ck.name = nm
    · exact updateLast_keeps nm sk v ds k ck hck
        ⟨m, cm, hm, hcm, hcmname.trans heq.symm⟩
    · exact updateLast_keeps_ne nm sk v ds k ck hck heq

theorem duplicate_name_last_wins_witness :
    ([dupChar, setSkill dupChar Skill.SWORD 7][0]? = some dupChar) ∧
      (updateLastByName [dupChar, dupChar] "Dup" Skill.SWORD 7)[1]? =
        some (setSkill dupChar Skill.SWORD 7) := by
  have base := duplicate_name_last_wins dupSrc 2 [dupChar, dupChar] _ _ rfl
  refine ⟨base.1 0 dupChar (by simp) ⟨1, dupChar, by omega, by simp, rfl⟩, ?_⟩
  exact (base.2 [dupChar, dupChar] "Dup" Skill.SWORD 7 1 dupChar (by simp)).2 rfl
    (fun m cm hm hcm => by
      rcases m with _ | _ | m
      · omega
      · omega
      · simp at hcm)

end Market

namespace Market

lemma runPages_pages (src : Source) (sk : Skill) (pending : List String) :
    ∀ (N fuel page : Nat) (cs : List Character),
      (∀ p, p < N → ((src sk (page + p)).drop 1) ≠ []) →
      ((src sk (page + N)).drop 1) = [] →
      N < fuel →
      ∃ cs1, runPages src sk pending fuel page cs =
        some ((List.range (N + 1)).map (fun p => page + p), cs1)
  | 0, fuel, page, cs => by
    intro hfull hempty hfuel
    cases fuel with
    | zero => omega
    | succ f =>
      rw [Nat.add_zero] at hempty
      refine ⟨cs, ?_⟩
      rw [runPages, if_pos (by simp [hempty])]
      rw [show List.range 1 = [0] by rfl]
      simp
  | N + 1, fuel, page, cs => by
    intro hfull hempty hfuel
    cases fuel with
    | zero => omega
    | succ f =>
      have hne : (src sk page).drop 1 ≠ [] := by
        have := hfull 0 (by omega)
        rwa [Nat.add_zero] at this
      obtain ⟨cs1, hrec⟩ := runPages_pages src sk pending N f (page + 1)
        (scanRows pending sk ((src sk page).drop 1) cs)
        (fun p hp => by
          have := hfull (p + 1) (by omega)
          rwa [show page + (p + 1) = page + 1 + p by omega] at this)
        (by
          have := hempty
          rwa [show page + (N + 1) = page + 1 + N by omega] at this)
        (by omega)
      refine ⟨cs1, ?_⟩
      rw [runPages, if_neg (by simpa [List.isEmpty_iff] using hne), hrec]
      have hlist : (List.range (N + 2)).map (fun p => page + p) =
          page :: (List.range (N + 1)).map (fun p => page + 1 + p) := by
        rw [List.range_succ_eq_map, List.map_cons, List.map_map]
        have hfn : ((fun p => page + p) ∘ Nat.succ) = (fun p => page + 1 + p) :=
          funext (fun p => by simp only [Function.comp_apply]; omega)
        rw [hfn]
        simp
      rw [hlist]

lemma enrichLoop_filter_not_mem (src : Source) (fuel : Nat) (pend : Skill → List String)
    (sk : Skill) (sks : List Skill) (cs : List Character) (fs : List (Skill × Nat))
    (cs2 : List Character) (hnot : sk ∉ sks)
    (h : enrichLoop src fuel pend sks cs = some (fs, cs2)) :
    fs.filter (fun e => e.1 = sk) = [] := by
  rw [List.filter_eq_nil_iff]
  intro e he
  have h1 := (enrichLoop_fetches src fuel pend sks cs fs cs2 h e he).1
  simp only [decide_eq_true_eq]
  exact fun hq => hnot (hq ▸ h1)

lemma enrichLoop_filter (src : Source) (fuel : Nat) (pend : Skill → List String)
    (sk : Skill) (pages : List Nat)
    (hrun : ∀ cs : List Character, ∃ cs1,
      runPages src sk (pend sk) fuel 0 cs = some (pages, cs1))
    (hpend : pend sk ≠ []) :
    ∀ (sks : List Skill) (cs : List Character) (fs : List (Skill × Nat))
      (cs2 : List Character), sks.Nodup → sk ∈ sks →
      enrichLoop src fuel pend sks cs = some (fs, cs2) →
      fs.filter (fun e => e.1 = sk) = pages.map (fun p => (sk, p))
  | [], cs, fs, cs2 => by
    intro _ hmem
    simp at hmem
  | s :: rest, cs, fs, cs2 => by
    intro hnodup hmem h
    rw [enrichLoop] at h
    by_cases hs : s = sk
    · subst hs
      rw [if_neg (by simpa [List.isEmpty_iff] using hpend)] at h
      obtain ⟨cs1, hr⟩ := hrun cs
      rw [hr] at h
      dsimp only at h
      rcases hloop : enrichLoop src fuel pend rest cs1 with _ | pr2
      · rw [hloop] at h; simp at h
      · rw [hloop] at h
        obtain ⟨fs2, cs3⟩ := pr2
        obtain ⟨rfl, rfl⟩ : fs = pages.map (fun p => (s, p)) ++ fs2 ∧ cs3 = cs2 := by
          simpa [Prod.ext_iff, eq_comm] using h
        rw [List.filter_append]
        have hnot : s ∉ rest := (List.nodup_cons.mp hnodup).1
        rw [enrichLoop_filter_not_mem src fuel pend s rest cs1 fs2 _ hnot hloop]
        rw [List.append_nil]
        rw [List.filter_eq_self.mpr]
        rintro e he
        obtain ⟨p, _, rfl⟩ := List.mem_map.mp he
        simp
    · have hsk : sk ∈ rest := by
        rcases List.mem_cons.mp hmem with rfl | hm
        · exact absurd rfl hs
        · exact hm
      by_cases hpe : (pend s).isEmpty = true
      · rw [if_pos hpe] at h
        exact enrichLoop_filter src fuel pend sk pages hrun hpend rest cs fs cs2
          (List.nodup_cons.mp hnodup).2 hsk h
      · rw [if_neg hpe] at h
        rcases hrun2 : runPages src s (pend s) fuel 0 cs with _ | pr
        · rw [hrun2] at h; simp at h
        · rw [hrun2] at h
          obtain ⟨ps1, cs1⟩ := pr
          dsimp only at h
          rcases hloop : enrichLoop src fuel pend rest cs1 with _ | pr2
          · rw [hloop] at h; simp at h
          · rw [hloop] at h
            obtain ⟨fs2, cs3⟩ := pr2
            obtain ⟨rfl, rfl⟩ : fs = ps1.map (fun p => (s, p)) ++ fs2 ∧ cs3 = cs2 := by
              simpa [Prod.ext_iff, eq_comm] using h
            rw [List.filter_append]
            have hblock : (ps1.map (fun p => (s, p))).filter (fun e => e.1 = sk) = [] := by
              rw [List.filter_eq_nil_iff]
              rintro e he
              obtain ⟨p, _, rfl⟩ := List.mem_map.mp he
              simp [hs]
            rw [hblock, List.nil_append]
            exact enrichLoop_filter src fuel pend sk pages hrun hpend rest cs1 fs2 _
              (List.nodup_cons.mp hnodup).2 hsk hloop

/-- C4: for a skill with a non-empty pending set whose leaderboard has N
non-empty pages followed by an empty one, the enricher fetches exactly
pages 0 through N (N+1 fetches) for that skill and stops. -/
theorem pagination_fetch_bound (src : Source) (sk : Skill) (cs : List Character)
    (N fuel : Nat)
    (hpend : pendingNames cs sk ≠ [])
    (hfull : ∀ p, p < N → ((src sk p).drop 1) ≠ [])
    (hempty : ((src sk N).drop 1) = [])
    (hfuel : N < fuel) :
    (∀ (pending : List String) (cs0 : List Character), ∃ cs1,
        runPages src sk pending fuel 0 cs0 = some (List.range (N + 1), cs1)) ∧
    (∀ (fs : List (Skill × Nat)) (cs' : List Character),
        update_skills src fuel cs = some (fs, cs') →
        fs.filter (fun e => e.1 = sk) = (List.range (N + 1)).map (fun p => (sk, p))) := by
  have hmain : ∀ (pending : List String) (cs0 : List Character), ∃ cs1,
      runPages src sk pending fuel 0 cs0 = some (List.range (N + 1), cs1) := by
    intro pending cs0
    obtain ⟨cs1, hp⟩ := runPages_pages src sk pending N fuel 0 cs0
      (fun p hp' => by rw [Nat.zero_add]; exact hfull p hp')
      (by rw [Nat.zero_add]; exact hempty) hfuel
    exact ⟨cs1, by simpa using hp⟩
  refine ⟨hmain, fun fs cs' h => ?_⟩
  exact enrichLoop_filter src fuel (pendingNames cs) sk (List.range (N + 1))
    (fun cs0 => hmain (pendingNames cs sk) cs0) hpend skillOrder cs fs cs'
    (by decide) (by cases sk <;> simp [skillOrder]) h

theorem pagination_fetch_bound_witness :
    ([(Skill.MAGIC, 0), (Skill.MAGIC, 1), (Skill.SWORD, 0), (Skill.SWORD, 1),
        (Skill.AXE, 0), (Skill.CLUB, 0)].filter (fun e => e.1 = Skill.SWORD)) =
      [(Skill.SWORD, 0), (Skill.SWORD, 1)] :=
  (pagination_fetch_bound demoSrc Skill.SWORD [ariaChar, boChar] 1 2
    (by decide)
    (fun p hp => by
      have : p = 0 := by omega
      subst this
      decide)
    (by decide) (by omega)).2 _ _ rfl

end Market

namespace Market

lemma digitChar_isDigit : ∀ d : Nat, d < 10 → (Nat.digitChar d).isDigit = true := by decide

lemma digitChar_val : ∀ d : Nat, d < 10 → (Nat.digitChar d).toNat - 48 = d := by decide

lemma myDigits_ne_nil (n : Nat) : myDigits n ≠ [] := by
  rw [myDigits]
  by_cases h : n < 10
  · rw [dif_pos h]; simp
  · rw [dif_neg h]; simp

lemma myDigits_all_digits (n : Nat) : ∀ c ∈ myDigits n, c.isDigit = true := by
  induction n using Nat.strong_induction_on with
  | _ n ih =>
    rw [myDigits]
    by_cases h : n < 10
    · rw [dif_pos h]
      intro c hc
      obtain rfl : c = Nat.digitChar n := by simpa using hc
      exact digitChar_isDigit n h
    · rw [dif_neg h]
      intro c hc
      rcases List.mem_append.mp hc with hm | hm
      · exact ih (n / 10) (Nat.div_lt_self (by omega) (by omega)) c hm
      · obtain rfl : c = Nat.digitChar (n % 10) := by simpa using hm
        exact digitChar_isDigit (n % 10) (by omega)

lemma parseDigitsAux_myDigits (n : Nat) : ∀ (rest : List Char) (acc : Nat),
    parseDigitsAux (myDigits n ++ rest) acc =
      parseDigitsAux rest (acc * 10 ^ (myDigits n).length + n) := by
  induction n using Nat.strong_induction_on with
  | _ n ih =>
    intro rest acc
    rw [myDigits]
    by_cases h : n < 10
    · rw [dif_pos h]
      rw [List.cons_append, List.nil_append, parseDigitsAux,
        if_pos (digitChar_isDigit n h), digitChar_val n h]
      simp
    · rw [dif_neg h]
      rw [List.append_assoc, List.cons_append, List.nil_append,
        ih (n / 10) (Nat.div_lt_self (by omega) (by omega)),
        parseDigitsAux, if_pos (digitChar_isDigit (n % 10) (by omega)),
        digitChar_val (n % 10) (by omega)]
      have hlen : (myDigits (n / 10) ++ [Nat.digitChar (n % 10)]).length =
          (myDigits (n / 10)).length + 1 := by simp
      rw [hlen]
      congr 1
      have harith : ∀ (x : Nat),
          (acc * x + n / 10) * 10 + n % 10 = acc * (x * 10) + (n / 10 * 10 + n % 10) := by
        intro x; ring
      rw [harith, pow_succ]
      congr 1
      omega

lemma parseDigits_myDigits (n : Nat) : parseDigits (myDigits n) = some n := by
  rw [parseDigits, if_neg (by simp [List.isEmpty_iff, myDigits_ne_nil n])]
  have := parseDigitsAux_myDigits n [] 0
  rw [List.append_nil] at this
  rw [this, parseDigitsAux]
  simp

lemma toDigitsCore_eq : ∀ (fuel n : Nat) (ds : List Char), n < fuel →
    Nat.toDigitsCore 10 fuel n ds = myDigits n ++ ds
  | 0, n, ds => by omega
  | fuel + 1, n, ds => by
    intro h
    have hstep : Nat.toDigitsCore 10 (fuel + 1) n ds =
        (if n / 10 = 0 then Nat.digitChar (n % 10) :: ds
         else Nat.toDigitsCore 10 fuel (n / 10) (Nat.digitChar (n % 10) :: ds)) := rfl
    rw [hstep]
    by_cases h0 : n / 10 = 0
    · rw [if_pos h0]
      rw [myDigits, dif_pos (by omega)]
      rw [Nat.mod_eq_of_lt (by omega)]
      simp
    · rw [if_neg h0]
      rw [toDigitsCore_eq fuel (n / 10) _ (by omega)]
      have hmd : myDigits n = myDigits (n / 10) ++ [Nat.digitChar (n % 10)] := by
        rw [myDigits]
        exact dif_neg (by omega)
      rw [hmd]
      simp

lemma toString_nat_data (n : Nat) : (toString n).data = myDigits n := by
  show (Nat.toDigits 10 n).asString.data = myDigits n
  rw [Nat.toDigits, toDigitsCore_eq (n + 1) n [] (by omega)]
  simp [List.asString]

lemma pyInt_toString (n : Nat) : pyInt (toString n) = some (n : Int) := by
  obtain ⟨c, cs0, hm⟩ : ∃ c cs0, myDigits n = c :: cs0 := by
    rcases hmd : myDigits n with _ | ⟨c, cs0⟩
    · exact absurd hmd (myDigits_ne_nil n)
    · exact ⟨c, cs0, rfl⟩
  have hcdig : c.isDigit = true :=
    myDigits_all_digits n c (by rw [hm]; exact List.mem_cons_self _ _)
  unfold pyInt
  rw [toString_nat_data n, hm]
  dsimp only
  rw [if_neg (fun hc => by rw [hc] at hcdig; simp at hcdig),
    if_neg (fun hc => by rw [hc] at hcdig; simp at hcdig)]
  rw [← hm, parseDigits_myDigits n]
  rfl

lemma takeWhile_all_stop {p : Char → Bool} : ∀ (xs : List Char) (c : Char) (ys : List Char),
    (∀ x ∈ xs, p x = true) → p c = false →
    (xs ++ c :: ys).takeWhile p = xs
  | [], c, ys => by
    intro _ hc
    simp [List.takeWhile_cons, hc]
  | x :: xs, c, ys => by
    intro hall hc
    rw [List.cons_append, List.takeWhile_cons, hall x (List.mem_cons_self _ _)]
    simp [takeWhile_all_stop xs c ys (fun y hy => hall y (List.mem_cons_of_mem _ hy)) hc]

lemma firstToken_append (a b : String) (ha : ∀ x ∈ a.data, x ≠ ' ') :
    firstToken (a ++ " " ++ b) = a := by
  rw [firstToken]
  have hdata : (a ++ " " ++ b).data = a.data ++ ' ' :: b.data := by
    simp [String.data_append]
  rw [hdata, takeWhile_all_stop a.data ' ' b.data (fun x hx => by simp [ha x hx]) (by decide)]
  rfl

lemma infix_append_iff {n : List Char} (c0 : Char) (tl : List Char) (hn : n = c0 :: tl) :
    ∀ (a b : List Char), c0 ∉ a → ((n <:+: a ++ b) ↔ n <:+: b)
  | [], b => by
    intro _
    simp
  | x :: a', b => by
    intro hc0
    rw [List.cons_append, List.infix_cons_iff]
    constructor
    · rintro (hpre | hinf)
      · rw [hn] at hpre
        obtain ⟨rfl, -⟩ := List.cons_prefix_cons.mp hpre
        exact absurd (List.mem_cons_self _ _) hc0
      · exact (infix_append_iff c0 tl hn a' b (fun hm => hc0 (List.mem_cons_of_mem _ hm))).mp hinf
    · intro h
      exact Or.inr ((infix_append_iff c0 tl hn a' b (fun hm => hc0 (List.mem_cons_of_mem _ hm))).mpr h)

lemma prof_value_shift (lvl : Nat) (text : String) (q : Profession) :
    (q.value.data <:+: (toString lvl ++ " " ++ text).data) ↔ q.value.data <:+: text.data := by
  have hdata : (toString lvl ++ " " ++ text).data = ((toString lvl).data ++ [' ']) ++ text.data := by
    simp [String.data_append]
  rw [hdata]
  have hdig : ∀ x ∈ (toString lvl).data ++ [' '], x.isDigit = true ∨ x = ' ' := by
    intro x hx
    rcases List.mem_append.mp hx with hx' | hx'
    · left
      rw [toString_nat_data] at hx'
      exact myDigits_all_digits lvl x hx'
    · right
      simpa using hx'
  cases q <;>
    exact infix_append_iff _ _ rfl _ _
      (fun hm => by rcases hdig _ hm with hd | hd <;> simp at hd)

/-- C2: well-formed listing-row construction followed by parsing yields
back the original (name, level, profession, price) tuple. -/
theorem listing_row_round_trip (name text trail : String) (lvl price : Nat)
    (prof : Profession)
    (hname : name ≠ "") (hlvl : 0 < lvl) (hprice : 0 < price)
    (hhas : prof.value.data <:+: text.data)
    (honly : ∀ q : Profession, q ≠ prof → ¬ q.value.data <:+: text.data) :
    Auction.create [name, toString lvl ++ " " ++ text, toString price ++ " " ++ trail] =
      some ⟨⟨name, prof, (lvl : Int), fun _ => none⟩, (price : Int)⟩ := by
  have hdigits : ∀ (m : Nat) (x : Char), x ∈ (toString m).data → x ≠ ' ' := by
    intro m x hx
    rw [toString_nat_data] at hx
    have := myDigits_all_digits m x hx
    intro hsp
    rw [hsp] at this
    simp at this
  have h1 : firstToken (toString lvl ++ " " ++ text) = toString lvl :=
    firstToken_append _ text (hdigits lvl)
  have h2 : pyInt (toString lvl) = some (lvl : Int) := pyInt_toString lvl
  have hcon : ∀ q : Profession,
      strContains q.value (toString lvl ++ " " ++ text) = true ↔
        q.value.data <:+: text.data :=
    fun q => (strContains_iff _ _).trans (prof_value_shift lvl text q)
  have hq : ∀ q : Profession, q ≠ prof →
      strContains q.value (toString lvl ++ " " ++ text) = false := by
    intro q hqp
    have hh := honly q hqp
    rw [← hcon q] at hh
    simpa using hh
  have hp : strContains prof.value (toString lvl ++ " " ++ text) = true :=
    (hcon prof).mpr hhas
  have h3 : Profession.find (toString lvl ++ " " ++ text) = some prof := by
    rw [find_eq_cases]
    cases prof with
    | KNIGHT => simp [hp]
    | SORCERER => simp [hp, hq Profession.KNIGHT (by decide)]
    | DRUID => simp [hp, hq Profession.KNIGHT (by decide), hq Profession.SORCERER (by decide)]
    | PALADIN => simp [hp, hq Profession.KNIGHT (by decide), hq Profession.SORCERER (by decide),
        hq Profession.DRUID (by decide)]
  have h4 : firstToken (toString price ++ " " ++ trail) = toString price :=
    firstToken_append _ trail (hdigits price)
  have h5 : pyInt (toString price) = some (price : Int) := pyInt_toString price
  simp [Auction.create, List.get?, h1, h2, h3, h4, h5]

theorem listing_row_round_trip_witness :
    Auction.create ["Aria", toString 120 ++ " " ++ "Elite Knight",
        toString 5000 ++ " " ++ "gold"] =
      some ⟨⟨"Aria", Profession.KNIGHT, (120 : Int), fun _ => none⟩, (5000 : Int)⟩ :=
  listing_row_round_trip "Aria" "Elite Knight" "gold" 120 5000 Profession.KNIGHT
    (by decide) (by decide) (by decide) (by decide) (by decide)

end Market
